import Mathlib

/-!
# Verification of the MIDI-to-chart encoder (`src/tools/midi_to_txt.py`)

Shallow embedding of `midi_to_chart`.  Ticks, velocities and note identifiers
are modelled as `Nat` (MIDI delta-times and data bytes are unsigned; Python's
arbitrary-precision non-negative ints restricted to this input domain).
Python `//` on naturals is `Nat` division; the one division whose divisor can
be zero (Python raises `ZeroDivisionError`) is modelled as `Option`.
-/

/-- A MIDI message as seen by the encoder: `mido` messages have a `type`
(here `note_on`, `note_off`, or anything else), a `note`, a `velocity`, and a
delta `time` in ticks since the previous message of the same track. -/
inductive MsgType where
  | note_on
  | note_off
  | other
deriving DecidableEq, Repr

structure Msg where
  type : MsgType
  note : Nat
  velocity : Nat
  time : Nat
deriving DecidableEq, Repr

/-- The mutable state of the event-pairing loop: the accumulated
`notes` list of `(start_tick, end_tick, note)` triples, and the `active`
dict mapping a note identity to the tick of its pending note-on. -/
structure PairState where
  notes : List (Nat × Nat × Nat)
  active : Nat → Option Nat

/-- Both fields (`notes = []`, `active = {}`) at their initial values,
as set up on lines 24–25 of the source. -/
def PairState.init : PairState := ⟨[], fun _ => none⟩

/-- One iteration of the inner message loop (lines 31–36 of the source),
at absolute time `t` (already advanced by `msg.time`):
a `note_on` with positive velocity records/overwrites the pending start;
a `note_off`, or a `note_on` with zero velocity, closes the pending start
into an interval if one exists (otherwise it is ignored); any other
message type only advances time. -/
def stepMsg (t : Nat) (st : PairState) (m : Msg) : PairState :=
  if m.type = MsgType.note_on ∧ m.velocity > 0 then
    { st with active := fun k => if k = m.note then some t else st.active k }
  else if m.type = MsgType.note_off ∨ (m.type = MsgType.note_on ∧ m.velocity = 0) then
    match st.active m.note with
    | some s =>
        { notes := st.notes ++ [(s, t, m.note)],
          active := fun k => if k = m.note then none else st.active k }
    | none => st
  else st

/-- The inner message loop, threading the absolute time `abs_time`
(running sum of delta times, line 30) through the track. -/
def runMsgs (t : Nat) (st : PairState) : List Msg → PairState
  | [] => st
  | m :: ms => runMsgs (t + m.time) (stepMsg (t + m.time) st m) ms

/-- One track of the outer loop (lines 27–36): `abs_time` restarts at 0,
while the pairing state (in particular `active`) is carried in. -/
def runTrack (st : PairState) (msgs : List Msg) : PairState :=
  runMsgs 0 st msgs

/-- Event pairing over all tracks (lines 24–36): the `notes` list after
folding every track through the shared state. -/
def pairTracks (tracks : List (List Msg)) : List (Nat × Nat × Nat) :=
  (tracks.foldl runTrack PairState.init).notes

/-- Pairing of a single track in isolation, from a fresh state: the
reference point for the spec's claim that tracks are processed
independently. -/
def pairOneTrack (tr : List Msg) : PairState :=
  runTrack PairState.init tr

/-- Time quantization, `tick // ticks_per_step` (lines 55–56, and line 44
for the chart length).  Python `//` raises `ZeroDivisionError` on a zero
divisor, modelled as `none`. -/
def quantize (tick tps : Nat) : Option Nat :=
  if tps = 0 then none else some (tick / tps)

/-- `max(end for _, end, _ in notes)` (line 43); the source only evaluates
it on a non-empty `notes` list, where the fold from 0 agrees with `max`. -/
def maxEnd (notes : List (Nat × Nat × Nat)) : Nat :=
  (notes.map (fun x => x.2.1)).foldl max 0

/-- Well-formedness of the chart array: `num_rows` rows, each of width 4. -/
def ChartWF (chart : List (List Nat)) (numRows : Nat) : Prop :=
  chart.length = numRows ∧ ∀ i, i < numRows → (chart.getD i []).length = 4

/-- Cell read `chart[r][lane]`, with 0 for out-of-range indices (the source
never reads out of range; this is only our observation function). -/
def getCell (chart : List (List Nat)) (r lane : Nat) : Nat :=
  (chart.getD r []).getD lane 0

/-- Cell write `chart[row][lane] = v` (lines 65/67): the row list is
updated in place at index `lane`. -/
def writeCell (chart : List (List Nat)) (r lane v : Nat) : List (List Nat) :=
  chart.set r ((chart.getD r []).set lane v)

/-- The `for row in range(start_row, end_row)` loop body (lines 62–67),
as a recursion on the remaining iteration count `k` starting at row `r`:
rows within bounds (`row < num_rows`) get `2` (head) while
`row < start_row + rows_per_step`, and `1` (tail) after. -/
def paintFrom (lane startRow rps numRows : Nat) :
    List (List Nat) → Nat → Nat → List (List Nat)
  | chart, _, 0 => chart
  | chart, r, k + 1 =>
      let chart' :=
        if r < numRows then
          writeCell chart r lane (if r < startRow + rps then 2 else 1)
        else chart
      paintFrom lane startRow rps numRows chart' (r + 1) k

/-- The whole row loop of one interval: `range(start_row, end_row)` has
`end_row - start_row` iterations (none when `end_row ≤ start_row`). -/
def paintRows (chart : List (List Nat)) (lane startRow endRow rps numRows : Nat) :
    List (List Nat) :=
  paintFrom lane startRow rps numRows chart startRow (endRow - startRow)

/-- The body of the per-interval loop (lines 50–67): out-of-lane notes are
skipped, otherwise `lane = lane_notes.index(note)`, the interval ends are
quantized (`tps` is non-zero whenever this loop is reached, see
`midi_to_chart`), scaled by `rows_per_step`, and the rows painted. -/
def paintNote (lane_notes : List Nat) (tps rps numRows : Nat)
    (chart : List (List Nat)) (nt : Nat × Nat × Nat) : List (List Nat) :=
  if nt.2.2 ∈ lane_notes then
    let lane := lane_notes.indexOf nt.2.2
    let startRow := (nt.1 / tps) * rps
    let endRow := (nt.2.1 / tps) * rps
    paintRows chart lane startRow endRow rps numRows
  else chart

/-- `chart = [[0, 0, 0, 0] for _ in range(num_rows)]` (line 48). -/
def initChart (numRows : Nat) : List (List Nat) :=
  List.replicate numRows [0, 0, 0, 0]

/-- Row expansion of the whole pooled interval list, in list order
(lines 48–67). -/
def buildChart (notes : List (Nat × Nat × Nat)) (lane_notes : List Nat)
    (tps rps numRows : Nat) : List (List Nat) :=
  notes.foldl (paintNote lane_notes tps rps numRows) (initChart numRows)

/-- `f"{val:02b}"`: binary digits of `val`, zero-padded on the left to a
minimum width of 2. -/
def bin2 (v : Nat) : String :=
  let ds := Nat.toDigits 2 v
  String.mk (List.replicate (2 - ds.length) '0' ++ ds)

/-- `"".join(f"{val:02b}" for val in row)` (line 72). -/
def renderRow (row : List Nat) : String :=
  String.join (row.map bin2)

/-- The output file contents: each row's line followed by `"\n"`
(line 73), rows in chart order, nothing before or after. -/
def fileContent (chart : List (List Nat)) : String :=
  String.join (chart.map (fun row => renderRow row ++ "\x0a"))

/-- Decoder of a rendered line under the spec's 2-bit field convention
(`00 → 0`, `01 → 1`, `10 → 2`); stated from the spec's words for the
round-trip property, not from the source. -/
def decodeBits : List Char → List Nat
  | c1 :: c2 :: rest =>
      ((if c1 = '1' then 1 else 0) * 2 + (if c2 = '1' then 1 else 0)) :: decodeBits rest
  | _ => []

/-- Outcome of a `midi_to_chart` run: either the early return after
printing `"No notes found"` (no file written), or the file written with
the given contents. -/
inductive ChartOutcome where
  | noNotes
  | written (contents : String)
deriving DecidableEq, Repr

/-- The whole encoder (lines 18–73), over the event data the MIDI source
exposes: per-track message lists and `ticks_per_beat`.  `none` models the
uncaught `ZeroDivisionError` raised by the first quantization
(`max_tick // ticks_per_step`, line 44) when `ticks_per_step` is zero;
the divisions inside the interval loop run only after that one succeeded,
hence with a non-zero divisor. -/
def midi_to_chart (tracks : List (List Msg)) (lane_notes : List Nat)
    (subdivision rows_per_step ticks_per_beat : Nat) : Option ChartOutcome :=
  let ticks_per_step := ticks_per_beat / subdivision
  let notes := pairTracks tracks
  if notes.isEmpty then
    some ChartOutcome.noNotes
  else
    match quantize (maxEnd notes) ticks_per_step with
    | none => none
    | some maxStep =>
        let num_rows := (maxStep + 1) * rows_per_step
        some (ChartOutcome.written
          (fileContent (buildChart notes lane_notes ticks_per_step rows_per_step num_rows)))

/-! ## Helper lemmas: list cells -/

theorem getD_set_self {α : Type} (l : List α) (i : Nat) (v d : α) (h : i < l.length) :
    (l.set i v).getD i d = v := by
  simp [List.getD_eq_getElem?_getD, List.getElem?_set_self h]

theorem getD_set_ne {α : Type} (l : List α) (i j : Nat) (v d : α) (h : i ≠ j) :
    (l.set i v).getD j d = l.getD j d := by
  simp [List.getD_eq_getElem?_getD, List.getElem?_set_ne h]

theorem initChart_WF (numRows : Nat) : ChartWF (initChart numRows) numRows := by
  refine ⟨List.length_replicate _ _, fun i hi => ?_⟩
  rw [initChart, List.getD_eq_getElem?_getD, List.getElem?_replicate_of_lt hi]
  rfl

theorem writeCell_WF {chart : List (List Nat)} {numRows : Nat} (h : ChartWF chart numRows)
    (r lane v : Nat) : ChartWF (writeCell chart r lane v) numRows := by
  obtain ⟨hlen, hrow⟩ := h
  refine ⟨by simp [writeCell, hlen], fun i hi => ?_⟩
  by_cases hir : r = i
  · subst hir
    rw [writeCell, getD_set_self _ _ _ _ (by omega), List.length_set]
    exact hrow r hi
  · rw [writeCell, getD_set_ne _ _ _ _ _ hir]
    exact hrow i hi

theorem getCell_writeCell {chart : List (List Nat)} {numRows : Nat}
    (h : ChartWF chart numRows) {r lane : Nat} (hr : r < numRows) (hlane : lane < 4)
    (v j l : Nat) :
    getCell (writeCell chart r lane v) j l =
      if j = r ∧ l = lane then v else getCell chart j l := by
  obtain ⟨hlen, hrow⟩ := h
  by_cases hjr : j = r
  · subst hjr
    rw [getCell, writeCell, getD_set_self _ _ _ _ (by omega)]
    by_cases hl : l = lane
    · subst hl
      rw [getD_set_self _ _ _ _ (by rw [hrow j hr]; omega)]
      simp
    · rw [getD_set_ne _ _ _ _ _ (fun hh => hl hh.symm)]
      simp [hl, getCell]
  · rw [getCell, writeCell, getD_set_ne _ _ _ _ _ (fun hh => hjr hh.symm)]
    simp [hjr, getCell]

/-! ## Helper lemmas: the row-painting loop -/

theorem paintFrom_spec (lane sr rps numRows : Nat) (hlane : lane < 4) :
    ∀ (k r : Nat) (chart : List (List Nat)), ChartWF chart numRows →
      ChartWF (paintFrom lane sr rps numRows chart r k) numRows ∧
      ∀ j l, getCell (paintFrom lane sr rps numRows chart r k) j l =
        if r ≤ j ∧ j < r + k ∧ j < numRows ∧ l = lane then
          (if j < sr + rps then 2 else 1)
        else getCell chart j l := by
  intro k
  induction k with
  | zero =>
      intro r chart hwf
      refine ⟨hwf, fun j l => ?_⟩
      rw [paintFrom]
      split
      · next hcond => exact absurd hcond (by omega)
      · rfl
  | succ n ih =>
      intro r chart hwf
      by_cases hr : r < numRows
      · have hpf : paintFrom lane sr rps numRows chart r (n + 1) =
            paintFrom lane sr rps numRows
              (writeCell chart r lane (if r < sr + rps then 2 else 1)) (r + 1) n := by
          simp only [paintFrom, if_pos hr]
        rw [hpf]
        obtain ⟨hwf2, hcell⟩ :=
          ih (r + 1) _ (writeCell_WF hwf r lane (if r < sr + rps then 2 else 1))
        refine ⟨hwf2, fun j l => ?_⟩
        rw [hcell j l, getCell_writeCell hwf hr hlane]
        split_ifs <;> first | rfl | (exfalso; omega)
      · have hpf : paintFrom lane sr rps numRows chart r (n + 1) =
            paintFrom lane sr rps numRows chart (r + 1) n := by
          simp only [paintFrom, if_neg hr]
        rw [hpf]
        obtain ⟨hwf2, hcell⟩ := ih (r + 1) _ hwf
        refine ⟨hwf2, fun j l => ?_⟩
        rw [hcell j l]
        split_ifs <;> first | rfl | (exfalso; omega)

theorem getCell_paintRows {chart : List (List Nat)} {numRows : Nat}
    (hwf : ChartWF chart numRows) {lane : Nat} (hlane : lane < 4)
    (sr er rps j l : Nat) :
    getCell (paintRows chart lane sr er rps numRows) j l =
      if sr ≤ j ∧ j < er ∧ j < numRows ∧ l = lane then
        (if j < sr + rps then 2 else 1)
      else getCell chart j l := by
  obtain ⟨-, hcell⟩ := paintFrom_spec lane sr rps numRows hlane (er - sr) sr chart hwf
  rw [paintRows, hcell j l]
  split_ifs <;> first | rfl | (exfalso; omega)

theorem paintRows_WF {chart : List (List Nat)} {numRows : Nat}
    (hwf : ChartWF chart numRows) {lane : Nat} (hlane : lane < 4) (sr er rps : Nat) :
    ChartWF (paintRows chart lane sr er rps numRows) numRows :=
  (paintFrom_spec lane sr rps numRows hlane (er - sr) sr chart hwf).1

theorem paintNote_WF {chart : List (List Nat)} {numRows : Nat}
    (hwf : ChartWF chart numRows) {lane_notes : List Nat} (h4 : lane_notes.length = 4)
    (tps rps : Nat) (nt : Nat × Nat × Nat) :
    ChartWF (paintNote lane_notes tps rps numRows chart nt) numRows := by
  rw [paintNote]
  by_cases hmem : nt.2.2 ∈ lane_notes
  · have hlane : lane_notes.indexOf nt.2.2 < 4 := by
      rw [← h4]; exact List.indexOf_lt_length.mpr hmem
    simp only [if_pos hmem]
    exact paintRows_WF hwf hlane _ _ _
  · simp only [if_neg hmem]
    exact hwf

theorem getCell_paintNote {chart : List (List Nat)} {numRows : Nat}
    (hwf : ChartWF chart numRows) {lane_notes : List Nat} (h4 : lane_notes.length = 4)
    {tps rps : Nat} {s e note : Nat} (hmem : note ∈ lane_notes) (j l : Nat) :
    getCell (paintNote lane_notes tps rps numRows chart (s, e, note)) j l =
      if (s / tps) * rps ≤ j ∧ j < (e / tps) * rps ∧ j < numRows ∧
          l = lane_notes.indexOf note then
        (if j < (s / tps) * rps + rps then 2 else 1)
      else getCell chart j l := by
  have hlane : lane_notes.indexOf note < 4 := by
    rw [← h4]; exact List.indexOf_lt_length.mpr hmem
  rw [paintNote]
  simp only [if_pos hmem]
  exact getCell_paintRows hwf hlane _ _ _ _ _

theorem foldl_paintNote_WF {numRows : Nat} {lane_notes : List Nat}
    (h4 : lane_notes.length = 4) (tps rps : Nat) :
    ∀ (notes : List (Nat × Nat × Nat)) (chart : List (List Nat)), ChartWF chart numRows →
      ChartWF (notes.foldl (paintNote lane_notes tps rps numRows) chart) numRows := by
  intro notes
  induction notes with
  | nil => intro chart hwf; exact hwf
  | cons nt rest ih =>
      intro chart hwf
      exact ih _ (paintNote_WF hwf h4 tps rps nt)

theorem buildChart_WF {numRows : Nat} {lane_notes : List Nat}
    (h4 : lane_notes.length = 4) (tps rps : Nat) (notes : List (Nat × Nat × Nat)) :
    ChartWF (buildChart notes lane_notes tps rps numRows) numRows :=
  foldl_paintNote_WF h4 tps rps notes _ (initChart_WF numRows)

/-! ## Helper lemmas: event pairing -/

theorem PairState.ext' {s1 s2 : PairState} (h1 : s1.notes = s2.notes)
    (h2 : s1.active = s2.active) : s1 = s2 := by
  cases s1; cases s2; cases h1; cases h2; rfl

/-- `stepMsg` appends to `notes` and updates `active` independently of the
incoming `notes` list. -/
theorem stepMsg_frame (t : Nat) (ns : List (Nat × Nat × Nat)) (a : Nat → Option Nat)
    (m : Msg) :
    stepMsg t ⟨ns, a⟩ m =
      ⟨ns ++ (stepMsg t ⟨[], a⟩ m).notes, (stepMsg t ⟨[], a⟩ m).active⟩ := by
  rw [stepMsg, stepMsg]
  split_ifs with h1 h2
  · exact PairState.ext' (by simp) rfl
  · cases ha : a m.note <;> simp [ha]
  · exact PairState.ext' (by simp) rfl

theorem runMsgs_frame :
    ∀ (ms : List Msg) (t : Nat) (ns : List (Nat × Nat × Nat)) (a : Nat → Option Nat),
      runMsgs t ⟨ns, a⟩ ms =
        ⟨ns ++ (runMsgs t ⟨[], a⟩ ms).notes, (runMsgs t ⟨[], a⟩ ms).active⟩ := by
  intro ms
  induction ms with
  | nil => intro t ns a; simp [runMsgs]
  | cons m rest ih =>
      intro t ns a
      have hst : (⟨(stepMsg (t + m.time) ⟨[], a⟩ m).notes,
          (stepMsg (t + m.time) ⟨[], a⟩ m).active⟩ : PairState) =
          stepMsg (t + m.time) ⟨[], a⟩ m := PairState.ext' rfl rfl
      have h1 := ih (t + m.time) (ns ++ (stepMsg (t + m.time) ⟨[], a⟩ m).notes)
        (stepMsg (t + m.time) ⟨[], a⟩ m).active
      have h2 := ih (t + m.time) (stepMsg (t + m.time) ⟨[], a⟩ m).notes
        (stepMsg (t + m.time) ⟨[], a⟩ m).active
      rw [hst] at h2
      rw [runMsgs, runMsgs, stepMsg_frame, h1, h2]
      exact PairState.ext' (by simp) rfl

/-- One step preserves the pairing invariants: every pending start is at
most the current time, and every closed interval has start ≤ end. -/
theorem stepMsg_inv {t : Nat} {st : PairState} (m : Msg)
    (ha : ∀ k s, st.active k = some s → s ≤ t)
    (hn : ∀ x ∈ st.notes, x.1 ≤ x.2.1) :
    (∀ k s, (stepMsg t st m).active k = some s → s ≤ t) ∧
      (∀ x ∈ (stepMsg t st m).notes, x.1 ≤ x.2.1) := by
  rw [stepMsg]
  split_ifs with h1 h2
  · refine ⟨fun k s hks => ?_, hn⟩
    by_cases hk : k = m.note
    · simp [hk] at hks; omega
    · simp [hk] at hks; exact ha k s hks
  · cases hm : st.active m.note with
    | some s0 =>
        refine ⟨fun k s hks => ?_, fun x hx => ?_⟩
        · by_cases hk : k = m.note
          · simp [hk] at hks
          · simp [hk] at hks; exact ha k s hks
        · simp at hx
          rcases hx with hx | hx
          · exact hn x hx
          · rw [hx]; exact ha m.note s0 hm
    | none => exact ⟨ha, hn⟩
  · exact ⟨ha, hn⟩

/-- The invariants are preserved along a whole message list; the pending
bound is stated against the final absolute time. -/
theorem runMsgs_inv :
    ∀ (ms : List Msg) (t : Nat) (st : PairState),
      (∀ k s, st.active k = some s → s ≤ t) →
      (∀ x ∈ st.notes, x.1 ≤ x.2.1) →
      (∀ x ∈ (runMsgs t st ms).notes, x.1 ≤ x.2.1) := by
  intro ms
  induction ms with
  | nil => intro t st _ hn; exact hn
  | cons m rest ih =>
      intro t st ha hn
      rw [runMsgs]
      have ha' : ∀ k s, st.active k = some s → s ≤ t + m.time :=
        fun k s hks => le_trans (ha k s hks) (Nat.le_add_right t m.time)
      obtain ⟨ha2, hn2⟩ := stepMsg_inv m ha' hn
      exact ih (t + m.time) _ ha2 hn2

/-- Pairing a single track from a fresh state yields only intervals with
start ≤ end. -/
theorem runTrack_init_le (tr : List Msg) :
    ∀ x ∈ (runTrack PairState.init tr).notes, x.1 ≤ x.2.1 := by
  rw [runTrack]
  exact runMsgs_inv tr 0 PairState.init (by intro k s h; simp [PairState.init] at h)
    (by intro x h; simp [PairState.init] at h)

/-- When every track, paired in isolation, closes all of its pending
notes, the shared-state fold decomposes into the per-track runs. -/
theorem foldl_runTrack_decomp :
    ∀ (tracks : List (List Msg)) (ns : List (Nat × Nat × Nat)),
      (∀ tr ∈ tracks, ∀ k, (runTrack PairState.init tr).active k = none) →
      (tracks.foldl runTrack ⟨ns, fun _ => none⟩).notes =
        ns ++ (tracks.map (fun tr => (runTrack PairState.init tr).notes)).flatten := by
  intro tracks
  induction tracks with
  | nil => intro ns _; simp
  | cons tr rest ih =>
      intro ns hclosed
      rw [List.foldl_cons]
      have hframe : runTrack (⟨ns, fun _ => none⟩ : PairState) tr =
          ⟨ns ++ (runTrack PairState.init tr).notes,
            (runTrack PairState.init tr).active⟩ := by
        rw [runTrack, runTrack, PairState.init]
        exact runMsgs_frame tr 0 ns (fun _ => none)
      have hact : (runTrack PairState.init tr).active = (fun _ => none) := by
        funext k
        exact hclosed tr (List.mem_cons_self tr rest) k
      rw [hframe, hact]
      rw [ih (ns ++ (runTrack PairState.init tr).notes)
        (fun tr2 htr2 k => hclosed tr2 (List.mem_cons_of_mem tr htr2) k)]
      simp [List.append_assoc]

/-! ## Claim theorems -/

/-- C3: for `ticks_per_step > 0`, quantization computes
`step = floor(tick / ticks_per_step)`; it is monotonic non-decreasing in
the tick, and `quantize (k * ticks_per_step) = k` for every `k`. -/
theorem C3_quantize_floor_monotone (tps : Nat) (htps : 0 < tps) :
    (∀ tick, quantize tick tps = some (tick / tps)) ∧
    (∀ t1 t2, t1 ≤ t2 → t1 / tps ≤ t2 / tps) ∧
    (∀ k : Nat, quantize (k * tps) tps = some k) := by
  have hne : tps ≠ 0 := Nat.pos_iff_ne_zero.mp htps
  refine ⟨fun tick => ?_, fun t1 t2 h => Nat.div_le_div_right h, fun k => ?_⟩
  · rw [quantize, if_neg hne]
  · rw [quantize, if_neg hne, Nat.mul_div_cancel _ htps]

theorem C3_quantize_floor_monotone_witness :
    quantize 250 120 = some 2 ∧ (7 : Nat) / 120 ≤ 250 / 120 ∧
      quantize (3 * 120) 120 = some 3 := by
  obtain ⟨h1, h2, h3⟩ := C3_quantize_floor_monotone 120 (by decide)
  exact ⟨(h1 250).trans (by decide), h2 7 250 (by decide), h3 3⟩

/-- C9: with `1 ≤ ticks_per_beat < subdivision` the derived
`ticks_per_step = ticks_per_beat // subdivision` truncates to zero, and
quantizing any tick by it raises `ZeroDivisionError` (modelled `none`)
instead of returning a step; a run whose pairing found notes therefore
aborts with that fault. -/
theorem C9_zero_step_division_fault (tpb subdiv : Nat) (h1 : 1 ≤ tpb)
    (h2 : tpb < subdiv) :
    tpb / subdiv = 0 ∧
    (∀ tick, quantize tick (tpb / subdiv) = none) ∧
    (∀ (tracks : List (List Msg)) (lane_notes : List Nat) (rps : Nat),
      pairTracks tracks ≠ [] →
      midi_to_chart tracks lane_notes subdiv rps tpb = none) := by
  have h0 : tpb / subdiv = 0 := Nat.div_eq_of_lt h2
  have hq : ∀ tick, quantize tick (tpb / subdiv) = none := by
    intro tick; rw [h0, quantize, if_pos rfl]
  refine ⟨h0, hq, fun tracks lane_notes rps hne => ?_⟩
  rw [midi_to_chart]
  have hemp : (pairTracks tracks).isEmpty = false := by
    simp [List.isEmpty_iff, hne]
  simp only [hemp, Bool.false_eq_true, if_false, hq (maxEnd (pairTracks tracks))]

theorem C9_zero_step_division_fault_witness :
    (2 : Nat) / 4 = 0 ∧ quantize 7 (2 / 4) = none ∧
      midi_to_chart [[⟨MsgType.note_on, 60, 64, 0⟩, ⟨MsgType.note_off, 60, 0, 240⟩]]
        [60, 61, 62, 63] 4 4 2 = none := by
  obtain ⟨h0, hq, hrun⟩ := C9_zero_step_division_fault 2 4 (by decide) (by decide)
  exact ⟨h0, hq 7, hrun _ _ 4 (by decide)⟩

/-- C8: when pairing yields zero intervals the encoder reports the
no-notes condition and returns before any output is produced. -/
theorem C8_no_notes_no_output (tracks : List (List Msg)) (lane_notes : List Nat)
    (subdiv rps tpb : Nat) (h : pairTracks tracks = []) :
    midi_to_chart tracks lane_notes subdiv rps tpb = some ChartOutcome.noNotes := by
  rw [midi_to_chart]
  simp [h]

theorem C8_no_notes_no_output_witness :
    midi_to_chart [] [60, 61, 62, 63] 4 4 480 = some ChartOutcome.noNotes :=
  C8_no_notes_no_output [] [60, 61, 62, 63] 4 4 480 (by decide)

/-- C6: a note-on with velocity 0 at tick `t` is handled exactly like an
explicit note-off (any velocity) at `t`: with a pending start `s` for the
note it closes the interval `(s, t, note)` and clears the pending entry,
and with no pending start it leaves the state unchanged. -/
theorem C6_zero_velocity_is_off (t : Nat) (st : PairState) (n time v : Nat) :
    stepMsg t st ⟨MsgType.note_on, n, 0, time⟩ =
      stepMsg t st ⟨MsgType.note_off, n, v, time⟩ ∧
    (∀ s, st.active n = some s →
      stepMsg t st ⟨MsgType.note_on, n, 0, time⟩ =
        ⟨st.notes ++ [(s, t, n)], fun k => if k = n then none else st.active k⟩) ∧
    (st.active n = none → stepMsg t st ⟨MsgType.note_on, n, 0, time⟩ = st) := by
  refine ⟨?_, fun s hs => ?_, fun hnone => ?_⟩
  · rw [stepMsg, stepMsg]; simp
  · rw [stepMsg]; simp [hs]
  · rw [stepMsg]; simp [hnone]

theorem C6_zero_velocity_is_off_witness :
    stepMsg 9 ⟨[(1, 2, 61)], fun k => if k = 60 then some 5 else none⟩
        ⟨MsgType.note_on, 60, 0, 4⟩ =
      ⟨[(1, 2, 61), (5, 9, 60)],
        fun k => if k = 60 then none else if k = 60 then some 5 else none⟩ :=
  (C6_zero_velocity_is_off 9 ⟨[(1, 2, 61)], fun k => if k = 60 then some 5 else none⟩
    60 4 0).2.1 5 rfl

theorem foldl_append_strings (l : List String) :
    ∀ a : String, l.foldl (fun r s => r ++ s) a = a ++ l.foldl (fun r s => r ++ s) "" := by
  induction l with
  | nil => intro a; simp
  | cons x xs ih =>
      intro a
      rw [List.foldl_cons, List.foldl_cons, ih (a ++ x), ih ("" ++ x)]
      simp [String.append_assoc]

/-- C2: a row whose four lane codes are in `{0,1,2}` renders as a line of
exactly 8 binary ASCII digits (four 2-bit fields, lane 0 to lane 3, the
field `11` never produced), the line decodes back to the same codes, and
the file is exactly the newline-terminated lines in chart row order with
nothing before or after. -/
theorem C2_serialization_roundtrip (row : List Nat) (hlen : row.length = 4)
    (hval : ∀ v ∈ row, v ≤ 2) :
    (renderRow row).length = 8 ∧
    (∀ c ∈ (renderRow row).toList, c = '0' ∨ c = '1') ∧
    decodeBits (renderRow row).toList = row ∧
    (∀ v ∈ row, bin2 v ≠ "11") ∧
    fileContent [] = "" ∧
    (∀ (chart : List (List Nat)),
      fileContent (row :: chart) = renderRow row ++ "\x0a" ++ fileContent chart) := by
  have hbash : (renderRow row).length = 8 ∧
      (∀ c ∈ (renderRow row).toList, c = '0' ∨ c = '1') ∧
      decodeBits (renderRow row).toList = row ∧
      (∀ v ∈ row, bin2 v ≠ "11") := by
    rcases row with _ | ⟨a, _ | ⟨b, _ | ⟨c, _ | ⟨d, _ | ⟨e, tail⟩⟩⟩⟩⟩ <;>
      simp only [List.length_nil, List.length_cons] at hlen <;> try omega
    have ha : a ≤ 2 := hval a (by simp)
    have hb : b ≤ 2 := hval b (by simp)
    have hc : c ≤ 2 := hval c (by simp)
    have hd : d ≤ 2 := hval d (by simp)
    interval_cases a <;> interval_cases b <;> interval_cases c <;>
      interval_cases d <;> decide
  refine ⟨hbash.1, hbash.2.1, hbash.2.2.1, hbash.2.2.2, rfl, fun chart => ?_⟩
  simp only [fileContent, String.join, List.map_cons, List.foldl_cons]
  rw [foldl_append_strings]
  simp [String.append_assoc]

theorem C2_serialization_roundtrip_witness :
    decodeBits (renderRow [0, 1, 2, 0]).toList = [0, 1, 2, 0] ∧
      (renderRow [0, 1, 2, 0]).length = 8 :=
  ⟨(C2_serialization_roundtrip [0, 1, 2, 0] (by decide) (by decide)).2.2.1,
   (C2_serialization_roundtrip [0, 1, 2, 0] (by decide) (by decide)).1⟩

/-- C1: with positive `ticks_per_step` and `rows_per_step`, painting an
interval whose note sits at index `lane` of the 4-entry lane mapping sets
every in-bounds row `r` of `[start_row, end_row)` on that lane to head
(2) while `r < start_row + rows_per_step` and to tail (1) after; and in
the concrete configuration `ticks_per_beat = 480`, `subdivision = 4`,
`rows_per_step = 4`, the lane-0 interval over ticks `[0, 240]` yields
rows 0–3 head, rows 4–7 tail, and rows 8–11 none. -/
theorem C1_row_expansion_paints_head_tail :
    (∀ (lane_notes : List Nat) (tps rps numRows : Nat) (chart : List (List Nat))
        (s e note r : Nat),
      0 < tps → 0 < rps → lane_notes.length = 4 → note ∈ lane_notes →
      ChartWF chart numRows →
      (s / tps) * rps ≤ r → r < (e / tps) * rps → r < numRows →
      getCell (paintNote lane_notes tps rps numRows chart (s, e, note)) r
          (lane_notes.indexOf note) =
        if r < (s / tps) * rps + rps then 2 else 1) ∧
    buildChart [(0, 240, 60)] [60, 61, 62, 63] (480 / 4) 4
        ((maxEnd [(0, 240, 60)] / (480 / 4) + 1) * 4) =
      [[2, 0, 0, 0], [2, 0, 0, 0], [2, 0, 0, 0], [2, 0, 0, 0],
       [1, 0, 0, 0], [1, 0, 0, 0], [1, 0, 0, 0], [1, 0, 0, 0],
       [0, 0, 0, 0], [0, 0, 0, 0], [0, 0, 0, 0], [0, 0, 0, 0]] := by
  constructor
  · intro lane_notes tps rps numRows chart s e note r _ _ h4 hmem hwf hr1 hr2 hr3
    rw [getCell_paintNote hwf h4 hmem, if_pos ⟨hr1, hr2, hr3, rfl⟩]
  · decide

theorem C1_row_expansion_paints_head_tail_witness :
    getCell (paintNote [60, 61, 62, 63] 120 4 12 (initChart 12) (0, 240, 60)) 5
        (List.indexOf 60 [60, 61, 62, 63]) = 1 :=
  (C1_row_expansion_paints_head_tail.1 [60, 61, 62, 63] 120 4 12 (initChart 12)
    0 240 60 5 (by decide) (by decide) (by decide) (by decide) (initChart_WF 12)
    (by decide) (by decide) (by decide)).trans (by decide)

/-- C7: when interval `A` and a later interval `B` map to the same lane
and their row ranges overlap, a row `r` in both ranges (and in bounds)
holds `B`'s code once `B` has been painted: last write wins, nothing is
merged and no error is raised. -/
theorem C7_overlap_last_write_wins (lane_notes : List Nat)
    (tps rps numRows : Nat) (pre mid : List (Nat × Nat × Nat))
    (sA eA nA sB eB nB r : Nat) (h4 : lane_notes.length = 4)
    (hmemA : nA ∈ lane_notes) (hmemB : nB ∈ lane_notes)
    (hlane : lane_notes.indexOf nA = lane_notes.indexOf nB)
    (hA1 : (sA / tps) * rps ≤ r) (hA2 : r < (eA / tps) * rps)
    (hB1 : (sB / tps) * rps ≤ r) (hB2 : r < (eB / tps) * rps)
    (hr : r < numRows) :
    getCell
        (buildChart (pre ++ (sA, eA, nA) :: mid ++ [(sB, eB, nB)])
          lane_notes tps rps numRows)
        r (lane_notes.indexOf nB) =
      if r < (sB / tps) * rps + rps then 2 else 1 := by
  rw [buildChart,
    show pre ++ (sA, eA, nA) :: mid ++ [(sB, eB, nB)] =
      (pre ++ (sA, eA, nA) :: mid) ++ [(sB, eB, nB)] by simp,
    List.foldl_append, List.foldl_cons, List.foldl_nil]
  have hwf := foldl_paintNote_WF h4 tps rps (pre ++ (sA, eA, nA) :: mid) _
    (initChart_WF numRows)
  rw [getCell_paintNote hwf h4 hmemB, if_pos ⟨hB1, hB2, hr, rfl⟩]

theorem C7_overlap_last_write_wins_witness :
    getCell (buildChart [(0, 240, 60), (120, 360, 60)] [60, 61, 62, 63] 120 4 12) 4
        (List.indexOf 60 [60, 61, 62, 63]) = 2 :=
  (C7_overlap_last_write_wins [60, 61, 62, 63] 120 4 12 [] [] 0 240 60 120 360 60 4
    (by decide) (by decide) (by decide) (by decide) (by decide) (by decide)
    (by decide) (by decide) (by decide)).trans (by decide)

theorem le_foldl_max (l : List Nat) :
    ∀ (a x : Nat), x ∈ l ∨ x ≤ a → x ≤ l.foldl max a := by
  induction l with
  | nil =>
      intro a x h
      rcases h with h | h
      · exact absurd h (List.not_mem_nil x)
      · exact h
  | cons y ys ih =>
      intro a x h
      rw [List.foldl_cons]
      rcases h with h | h
      · rcases List.mem_cons.mp h with rfl | h2
        · exact ih (max a x) x (Or.inr (le_max_right a x))
        · exact ih (max a y) x (Or.inl h2)
      · exact ih (max a y) x (Or.inr (le_trans h (le_max_left a y)))

/-- C10: with a non-empty interval list and positive `ticks_per_step` and
`rows_per_step`, every row index produced while expanding an interval of
the list is below `num_rows = (max_end_tick / ticks_per_step + 1) *
rows_per_step`, so the in-bounds guard never excludes a row. -/
theorem C10_generated_rows_in_bounds (notes : List (Nat × Nat × Nat))
    (tps rps s e n r : Nat) (htps : 0 < tps) (hrps : 0 < rps)
    (hmem : (s, e, n) ∈ notes)
    (h1 : (s / tps) * rps ≤ r) (h2 : r < (e / tps) * rps) :
    r < (maxEnd notes / tps + 1) * rps := by
  have he : e ≤ maxEnd notes := by
    rw [maxEnd]
    exact le_foldl_max _ 0 e
      (Or.inl (List.mem_map_of_mem (fun x => x.2.1) hmem))
  have hd : e / tps ≤ maxEnd notes / tps := Nat.div_le_div_right he
  have hm : (e / tps) * rps ≤ (maxEnd notes / tps) * rps :=
    Nat.mul_le_mul_right rps hd
  have hx : (maxEnd notes / tps + 1) * rps = (maxEnd notes / tps) * rps + rps := by
    ring
  omega

theorem C10_generated_rows_in_bounds_witness :
    (7 : Nat) < (maxEnd [(0, 240, 60)] / 120 + 1) * 4 :=
  C10_generated_rows_in_bounds [(0, 240, 60)] 120 4 0 240 60 7 (by decide)
    (by decide) (by decide) (by decide) (by decide)

/-- C4 counterexample: a note-on left pending by the first track is closed
by a note-off in the second track (the `active` dict is shared across the
track loop), so the pooled list differs from the union of the per-track
pairings, which is empty here. -/
theorem C4_counterexample_shared_active :
    pairTracks [[⟨MsgType.note_on, 60, 64, 0⟩], [⟨MsgType.note_off, 60, 0, 5⟩]] =
        [(0, 5, 60)] ∧
      pairTracks [[⟨MsgType.note_on, 60, 64, 0⟩]] = [] ∧
      pairTracks [[⟨MsgType.note_off, 60, 0, 5⟩]] = [] := by
  decide

/-- C4 amended: tracks are folded through one shared pending-note map, so
a pending note-on of one track can be closed by a note-off of a later
track; whenever every track's in-isolation pairing leaves no pending
note, the pooled interval list equals the concatenation of the per-track
in-isolation interval lists. -/
theorem C4_tracks_independent_when_tracks_close (tracks : List (List Msg))
    (h : ∀ tr ∈ tracks, ∀ k, (pairOneTrack tr).active k = none) :
    pairTracks tracks =
      (tracks.map (fun tr => (pairOneTrack tr).notes)).flatten := by
  rw [pairTracks]
  have hd := foldl_runTrack_decomp tracks [] h
  rw [show (PairState.init : PairState) = ⟨[], fun _ => none⟩ from rfl, hd]
  rfl

theorem C4_tracks_independent_when_tracks_close_witness :
    pairTracks [[⟨MsgType.note_on, 60, 64, 0⟩, ⟨MsgType.note_off, 60, 0, 240⟩]] =
      ([[⟨MsgType.note_on, 60, 64, 0⟩, ⟨MsgType.note_off, 60, 0, 240⟩]].map
        (fun tr => (pairOneTrack tr).notes)).flatten := by
  apply C4_tracks_independent_when_tracks_close
  intro tr htr k
  simp only [List.mem_singleton] at htr
  subst htr
  have hred : (pairOneTrack
      [⟨MsgType.note_on, 60, 64, 0⟩, ⟨MsgType.note_off, 60, 0, 240⟩]).active =
      fun k2 => if k2 = 60 then none else if k2 = 60 then some 0 else none := rfl
  rw [hred]
  by_cases hk : k = 60 <;> simp [hk]

/-- C5 counterexample: non-negative delta times, yet the cross-track
closure (pending start at tick 100 of track one, note-off at tick 5 of
track two, whose clock restarted) produces an interval whose start tick
exceeds its end tick. -/
theorem C5_counterexample_start_gt_end :
    pairTracks [[⟨MsgType.note_on, 60, 64, 100⟩], [⟨MsgType.note_off, 60, 0, 5⟩]] =
        [(100, 5, 60)] ∧ ¬(100 : Nat) ≤ 5 := by
  decide

/-- C5 amended: every interval produced by pairing comes with a
non-negative start tick (`Nat`), and has start ≤ end whenever no pending
note-on crosses a track boundary, i.e. whenever each track's
in-isolation pairing closes all of its pending notes. -/
theorem C5_intervals_ordered_when_tracks_close (tracks : List (List Msg))
    (h : ∀ tr ∈ tracks, ∀ k, (pairOneTrack tr).active k = none) :
    ∀ x ∈ pairTracks tracks, x.1 ≤ x.2.1 := by
  intro x hx
  have hd := foldl_runTrack_decomp tracks [] h
  rw [pairTracks, show (PairState.init : PairState) = ⟨[], fun _ => none⟩ from rfl,
    hd, List.nil_append, List.mem_flatten] at hx
  obtain ⟨l, hl, hxl⟩ := hx
  obtain ⟨tr, _, rfl⟩ := List.mem_map.mp hl
  exact runTrack_init_le tr x hxl

theorem C5_intervals_ordered_when_tracks_close_witness :
    (0, 240, 60).1 ≤ (0, 240, 60).2.1 := by
  apply C5_intervals_ordered_when_tracks_close
      [[⟨MsgType.note_on, 60, 64, 0⟩, ⟨MsgType.note_off, 60, 0, 240⟩]]
  · intro tr htr k
    simp only [List.mem_singleton] at htr
    subst htr
    have hred : (pairOneTrack
        [⟨MsgType.note_on, 60, 64, 0⟩, ⟨MsgType.note_off, 60, 0, 240⟩]).active =
        fun k2 => if k2 = 60 then none else if k2 = 60 then some 0 else none := rfl
    rw [hred]
    by_cases hk : k = 60 <;> simp [hk]
  · decide
